import Mathlib

/-!
# Snowman: a verification development

Shallow embedding of the Snowman terminal word-guessing game
(`src/rust-snowman-main/src/main.rs`) and proofs about its guess
validation, dictionary handling, reveal computation and game-state
machine.

Rust `String`s are modelled as `List Char`; the dictionary file content
is a `List Char` (`Option (List Char)` where absence of the file
matters); `Vec<String>` is `List (List Char)`.
-/

namespace Snowman

/-- Decidable equality for `Except`, used to state and decide results
of the validators. -/
instance {ε α : Type _} [DecidableEq ε] [DecidableEq α] :
    DecidableEq (Except ε α) := fun a b =>
  match a, b with
  | .ok x, .ok y =>
    decidable_of_iff (x = y) ⟨fun h => h ▸ rfl, fun h => by cases h; rfl⟩
  | .error x, .error y =>
    decidable_of_iff (x = y) ⟨fun h => h ▸ rfl, fun h => by cases h; rfl⟩
  | .ok _, .error _ => isFalse fun h => Except.noConfusion h
  | .error _, .ok _ => isFalse fun h => Except.noConfusion h

/-- Model of Rust `char::is_alphabetic`, restricted to ASCII letters
(the only letters the development reasons about). -/
def is_alphabetic (c : Char) : Bool := c.isAlpha

/-- The character class accepted by both validators:
alphabetic, hyphen, or apostrophe. -/
def is_word_char (c : Char) : Bool := is_alphabetic c || c = '-' || c = '\''

/-- The rejection reasons of `validate_guess` (the source returns
`&str` error messages; each message is represented by a constructor). -/
inductive GuessError where
  | notSingleCharacter
  | invalidCharacter
  | alreadyGuessed
deriving DecidableEq

/-- The rejection reasons of `validate_new_word`. -/
inductive NewWordError where
  | tooShort
  | invalidCharacter
  | alreadyPresent
deriving DecidableEq

/-- Embedding of `validate_guess` from `main.rs`:
reject unless the guess is a single character, of the word character
class, and not already among the guessed letters (exact comparison,
no case normalization). -/
def validate_guess (guess : List Char) (guessed_letters : List (List Char)) :
    Except GuessError Unit :=
  if guess.length ≠ 1 then .error .notSingleCharacter
  else if !(guess.all fun c => is_word_char c) then .error .invalidCharacter
  else if guessed_letters.contains guess then .error .alreadyGuessed
  else .ok ()

/-- Embedding of `validate_new_word` from `main.rs`:
reject words shorter than 2 characters, words with a character outside
the word class, and words already contained (verbatim) in the
dictionary. -/
def validate_new_word (word : List Char) (dictionary : List (List Char)) :
    Except NewWordError Unit :=
  if word.length < 2 then .error .tooShort
  else if word.any fun c => !(is_alphabetic c) && c ≠ '-' && c ≠ '\'' then
    .error .invalidCharacter
  else if dictionary.contains word then .error .alreadyPresent
  else .ok ()

/-- Model of Rust `str::lines`: lines are split at `'\n'` or `"\r\n"`;
a final line terminator produces no extra empty line; a bare carriage
return is an ordinary character. Empty lines between terminators ARE
produced. -/
def rustLines : List Char → List (List Char)
  | [] => []
  | [c] => if c = '\n' then [[]] else [[c]]
  | c :: d :: cs =>
    if c = '\n' then [] :: rustLines (d :: cs)
    else if c = '\r' && d = '\n' then [] :: rustLines cs
    else
      match rustLines (d :: cs) with
      | [] => [[c]]
      | l :: ls => (c :: l) :: ls

/-- Embedding of `read_dictionary` from `main.rs`: if the file is
absent it is created empty (so its content reads as `[]`), then the
content is split into lines, every line (empty ones included) becoming
one dictionary word. -/
def read_dictionary (file : Option (List Char)) : List (List Char) :=
  rustLines (file.getD [])

/-- Embedding of `write_dictionary` from `main.rs`: append the word
plus a newline to the file content. -/
def write_dictionary (file : List Char) (word : List Char) : List Char :=
  file ++ word ++ ['\n']

/-- Model of `slice::choose`: `none` on an empty list, otherwise some
element of the list selected by the random draw `r`. -/
def choose (dictionary : List (List Char)) (r : Nat) : Option (List Char) :=
  if dictionary.isEmpty then none else dictionary[r % dictionary.length]?

/-- Embedding of the word-selection prelude of `main`: load the
dictionary; if it is empty, return to dictionary management without a
word (`none`); otherwise pick a random word with `choose`. -/
def main_select (file : Option (List Char)) (r : Nat) : Option (List Char) :=
  let dictionary := read_dictionary file
  if dictionary.isEmpty then none
  else choose dictionary r

/-- Model of Rust `str::contains` with a string pattern: substring
search. -/
def str_contains (hay needle : List Char) : Bool :=
  match hay with
  | [] => needle.isEmpty
  | _ :: t => needle.isPrefixOf hay || str_contains t needle

/-- Lexicographic order on strings (codepoint order, which for UTF-8
agrees with Rust's byte order used by `Vec::sort`). -/
def str_le : List Char → List Char → Bool
  | [], _ => true
  | _ :: _, [] => false
  | a :: as, b :: bs => if a = b then str_le as bs else decide (a < b)

/-- Insert a string into a list sorted by `str_le`. -/
def insert_string (x : List Char) : List (List Char) → List (List Char)
  | [] => [x]
  | y :: ys => if str_le x y then x :: y :: ys else y :: insert_string x ys

/-- Model of Rust `Vec::sort` on `Vec<String>` (by `str_le`): since
equal keys are identical values, any sort by the same total order
yields the same list, so insertion sort is an exact model. -/
def sort_strings : List (List Char) → List (List Char)
  | [] => []
  | x :: xs => insert_string x (sort_strings xs)

/-- Model of Rust `"a b".split(" ")`: split at every single space,
keeping empty segments. -/
def split_space : List Char → List (List Char)
  | [] => [[]]
  | c :: cs =>
    if c = ' ' then [] :: split_space cs
    else match split_space cs with
      | [] => [[c]]
      | l :: ls => (c :: l) :: ls

/-- One word of the add-words flow: validate against the (fixed)
dictionary snapshot; on success append to the file, otherwise leave
the file unchanged. -/
def process_word (dictionary : List (List Char)) (file : List Char)
    (word : List Char) : List Char :=
  match validate_new_word word dictionary with
  | .ok _ => write_dictionary file word
  | .error _ => file

/-- One input line of the add-words flow: split at spaces and process
each word independently. -/
def process_line (dictionary : List (List Char)) (file : List Char)
    (line : List Char) : List Char :=
  (split_space line).foldl (process_word dictionary) file

/-- Embedding of `add_new_words_to_dictionary` from `main.rs`: consume
input lines until the line `"1"`, processing each line's
space-separated words against the dictionary snapshot taken at session
start (the in-memory dictionary is never updated). Returns the final
file content. -/
def add_new_words_to_dictionary (dictionary : List (List Char))
    (file : List Char) (inputs : List (List Char)) : List Char :=
  (inputs.takeWhile fun l => l ≠ ['1']).foldl (process_line dictionary) file

/-- Embedding of the display-string construction in `main`'s game
loop: for each character of the word, its own rendering plus a space
if its singleton string is among the guessed letters (exact
comparison), otherwise an underscore plus a space. -/
def display_word (word : List Char) (guessed_letters : List (List Char)) :
    List Char :=
  word.flatMap fun c =>
    if guessed_letters.contains [c] then [c, ' '] else ['_', ' ']

/-- Embedding of the completion check in `main`'s game loop: the
display string contains no underscore. -/
def fully_revealed (word : List Char) (guessed_letters : List (List Char)) :
    Bool :=
  (display_word word guessed_letters).all fun c => c ≠ '_'

/-- The spec's `sequence<Slot>`: per position, the character itself
when its singleton string is among the guessed letters, otherwise the
placeholder `'_'`. -/
def reveal_slots (word : List Char) (guessed_letters : List (List Char)) :
    List Char :=
  word.map fun c => if guessed_letters.contains [c] then c else '_'

/-- The mutable state of `main`'s game loop. -/
structure GameState where
  word : List Char
  guessed_letters : List (List Char)
  tries : Nat
deriving DecidableEq

/-- Outcome of one iteration of the game loop. -/
inductive TurnResult where
  | rejected (e : GuessError)
  | continued
  | won
  | lost
deriving DecidableEq

/-- Embedding of one iteration of `main`'s game loop, given the (already
trimmed and lowercased) raw guess: validate (on rejection, `continue`
with untouched state); push the guess; rebuild the display and the
completion flag; increment `tries` when the guess is not a substring of
the word; sort the guessed letters; break with a loss at `tries == 6`,
else with a win when complete, else continue. -/
def game_turn (s : GameState) (guess : List Char) : GameState × TurnResult :=
  match validate_guess guess s.guessed_letters with
  | .error e => (s, .rejected e)
  | .ok _ =>
    let gl := s.guessed_letters ++ [guess]
    let guessedFlag := fully_revealed s.word gl
    let tries := if str_contains s.word guess then s.tries else s.tries + 1
    let s1 : GameState := ⟨s.word, sort_strings gl, tries⟩
    if tries = 6 then (s1, .lost)
    else if guessedFlag then (s1, .won)
    else (s1, .continued)

/-- The game state at the start of `main`'s loop: no guessed letters,
zero tries. -/
def initial_state (word : List Char) : GameState := ⟨word, [], 0⟩

/-- The game states occurring at the top of `main`'s loop: the initial
state, plus everything produced by a turn that did not terminate the
game (rejected guesses loop back, as do ordinary continued turns). -/
inductive Reachable : GameState → Prop
  | init (word : List Char) : Reachable (initial_state word)
  | step (s : GameState) (g : List Char) (h : Reachable s)
      (hnt : (game_turn s g).2 ≠ .won ∧ (game_turn s g).2 ≠ .lost) :
      Reachable (game_turn s g).1

/-! ## Helper lemmas -/

theorem mem_insert_string (a x : List Char) (l : List (List Char)) :
    a ∈ insert_string x l ↔ a = x ∨ a ∈ l := by
  induction l with
  | nil => simp [insert_string]
  | cons y ys ih =>
    simp only [insert_string]
    split
    · simp
    · simp only [List.mem_cons, ih]
      tauto

theorem mem_sort_strings (a : List Char) (l : List (List Char)) :
    a ∈ sort_strings l ↔ a ∈ l := by
  induction l with
  | nil => simp [sort_strings]
  | cons x xs ih => simp [sort_strings, mem_insert_string, ih]

theorem str_contains_singleton (w : List Char) (c : Char) :
    str_contains w [c] = true ↔ c ∈ w := by
  induction w with
  | nil => simp [str_contains, List.isEmpty]
  | cons h t ih =>
    have hpre : ([c].isPrefixOf (h :: t)) = (c == h) := by
      simp [List.isPrefixOf]
    simp only [str_contains, hpre, Bool.or_eq_true, beq_iff_eq, ih,
      List.mem_cons]

theorem validate_guess_ok_iff (g : List Char) (G : List (List Char)) :
    validate_guess g G = .ok () ↔
      g.length = 1 ∧ (g.all fun c => is_word_char c) = true ∧ g ∉ G := by
  unfold validate_guess
  split_ifs with h1 h2 h3 <;>
    simp_all

theorem validate_guess_error_em (g : List Char) (G : List (List Char)) :
    validate_guess g G = .ok () ∨ ∃ e, validate_guess g G = .error e := by
  unfold validate_guess
  split_ifs <;> simp

theorem validate_new_word_ok_iff (w : List Char) (D : List (List Char)) :
    validate_new_word w D = .ok () ↔
      ¬ w.length < 2 ∧
        ¬ (w.any fun c => !(is_alphabetic c) && c ≠ '-' && c ≠ '\'') = true ∧
        w ∉ D := by
  unfold validate_new_word
  split_ifs with h1 h2 h3
  · exact iff_of_false (by simp) fun h => h.1 h1
  · exact iff_of_false (by simp) fun h => h.2.1 h2
  · have hm : w ∈ D := by simpa using h3
    exact iff_of_false (by simp) fun h => h.2.2 hm
  · have hm : w ∉ D := by simpa using h3
    exact iff_of_true rfl ⟨h1, h2, hm⟩

theorem fully_revealed_iff (w : List Char) (G : List (List Char)) :
    fully_revealed w G = true ↔ ∀ c ∈ w, [c] ∈ G ∧ c ≠ '_' := by
  induction w with
  | nil => simp [fully_revealed, display_word]
  | cons c cs ih =>
    have hstep : fully_revealed (c :: cs) G =
        (((if G.contains [c] then [c, ' '] else ['_', ' ']).all
            fun x => x ≠ '_') && fully_revealed cs G) := by
      simp only [fully_revealed, display_word, List.flatMap_cons,
        List.all_append]
    rw [hstep, Bool.and_eq_true, ih, List.forall_mem_cons]
    by_cases hm : G.contains [c] = true
    · have hmem : [c] ∈ G := by simpa using hm
      simp [hm, hmem]
    · have hmem : [c] ∉ G := by simpa using hm
      simp [hm, hmem]

theorem game_turn_error (s : GameState) (g : List Char) (e : GuessError)
    (h : validate_guess g s.guessed_letters = .error e) :
    game_turn s g = (s, .rejected e) := by
  simp [game_turn, h]

theorem game_turn_ok (s : GameState) (g : List Char)
    (h : validate_guess g s.guessed_letters = .ok ()) :
    game_turn s g =
      (let gl := s.guessed_letters ++ [g]
       let tries := if str_contains s.word g then s.tries else s.tries + 1
       let s1 : GameState := ⟨s.word, sort_strings gl, tries⟩
       if tries = 6 then (s1, .lost)
       else if fully_revealed s.word gl then (s1, .won)
       else (s1, .continued)) := by
  simp [game_turn, h]

theorem game_turn_word (s : GameState) (g : List Char) :
    (game_turn s g).1.word = s.word := by
  rcases validate_guess_error_em g s.guessed_letters with h | ⟨e, h⟩
  · rw [game_turn_ok s g h]
    dsimp only
    split_ifs <;> rfl
  · rw [game_turn_error s g e h]

theorem game_turn_ok_cases (s : GameState) (g : List Char)
    (hv : validate_guess g s.guessed_letters = .ok ()) :
    (game_turn s g).1.word = s.word ∧
    (game_turn s g).1.guessed_letters =
      sort_strings (s.guessed_letters ++ [g]) ∧
    (game_turn s g).1.tries =
      (if str_contains s.word g = true then s.tries else s.tries + 1) ∧
    ((game_turn s g).2 = .lost ↔ (game_turn s g).1.tries = 6) ∧
    ((game_turn s g).2 ≠ .lost →
      ((game_turn s g).2 = .won ↔
        fully_revealed s.word (s.guessed_letters ++ [g]) = true)) := by
  rw [game_turn_ok s g hv]
  dsimp only
  set T := if str_contains s.word g = true then s.tries else s.tries + 1 with hT
  split_ifs with h6 hfull
  · simp [h6]
  · simp [h6, hfull]
  · simp [h6, hfull]

theorem reachable_tries_le (s : GameState) (hr : Reachable s) : s.tries ≤ 5 := by
  induction hr with
  | init w => exact Nat.zero_le 5
  | step s g h hnt ih =>
    rcases validate_guess_error_em g s.guessed_letters with hv | ⟨e, hv⟩
    · obtain ⟨hword, hgl, htries, hlost, hwon⟩ := game_turn_ok_cases s g hv
      have h6 : (game_turn s g).1.tries ≠ 6 := fun hx => hnt.2 (hlost.mpr hx)
      rw [htries] at h6 ⊢
      split_ifs at h6 ⊢ with hc
      · exact ih
      · omega
    · rw [game_turn_error s g e hv]
      exact ih

theorem reachable_guessed_valid (s : GameState) (hr : Reachable s) :
    ∀ x ∈ s.guessed_letters,
      x.length = 1 ∧ (x.all fun c => is_word_char c) = true := by
  induction hr with
  | init w => intro x hx; cases hx
  | step s g h hnt ih =>
    rcases validate_guess_error_em g s.guessed_letters with hv | ⟨e, hv⟩
    · obtain ⟨hword, hgl, htries, hlost, hwon⟩ := game_turn_ok_cases s g hv
      have hg := (validate_guess_ok_iff g s.guessed_letters).mp hv
      intro x hx
      rw [hgl] at hx
      have hx2 := (mem_sort_strings x _).mp hx
      rcases List.mem_append.mp hx2 with hx3 | hx3
      · exact ih x hx3
      · rcases List.mem_singleton.mp hx3 with rfl
        exact ⟨hg.1, hg.2.1⟩
    · rw [game_turn_error s g e hv]
      exact ih

theorem reachable_not_done (s : GameState) (hr : Reachable s) :
    s.word ≠ [] → ∃ c ∈ s.word, [c] ∉ s.guessed_letters := by
  induction hr with
  | init w =>
    intro hw
    match w, hw with
    | c :: cs, _ => exact ⟨c, List.mem_cons_self c cs, by simp [initial_state]⟩
  | step s g h hnt ih =>
    rcases validate_guess_error_em g s.guessed_letters with hv | ⟨e, hv⟩
    · intro hw
      obtain ⟨hword, hgl, htries, hlost, hwon⟩ := game_turn_ok_cases s g hv
      have hfull : ¬ fully_revealed s.word (s.guessed_letters ++ [g]) = true :=
        fun hf => hnt.1 ((hwon hnt.2).mpr hf)
      rw [fully_revealed_iff] at hfull
      push_neg at hfull
      rcases hfull with ⟨c, hc, hcn⟩
      rw [hword, hgl]
      refine ⟨c, hc, fun hmem => ?_⟩
      have hmem2 : [c] ∈ s.guessed_letters ++ [g] :=
        (mem_sort_strings [c] _).mp hmem
      by_cases hcu : c = '_'
      · subst hcu
        rcases List.mem_append.mp hmem2 with hold | hnew
        · exact absurd (reachable_guessed_valid s h ['_'] hold).2 (by decide)
        · rcases List.mem_singleton.mp hnew with rfl
          exact absurd
            ((validate_guess_ok_iff _ s.guessed_letters).mp hv).2.1 (by decide)
      · exact hcu (hcn hmem2)
    · rw [game_turn_error s g e hv]
      exact ih

theorem rustLines_newline_cons (t : List Char) :
    rustLines ('\n' :: t) = [] :: rustLines t := by
  cases t <;> simp [rustLines]

theorem rustLines_append (w t : List Char)
    (hw : ∀ c ∈ w, c ≠ '\n' ∧ c ≠ '\r') :
    rustLines (w ++ '\n' :: t) = w :: rustLines t := by
  induction w with
  | nil => exact rustLines_newline_cons t
  | cons c cs ih =>
    have hc := hw c (List.mem_cons_self c cs)
    have ih' := ih fun x hx => hw x (List.mem_cons_of_mem c hx)
    cases cs with
    | nil =>
      simp [rustLines, hc.1, hc.2, rustLines_newline_cons]
    | cons c2 cs' =>
      simp only [List.cons_append] at ih' ⊢
      simp [rustLines, hc.1, hc.2, ih']

theorem validate_new_word_ok_not_mem (w : List Char) (D : List (List Char))
    (h : validate_new_word w D = .ok ()) : w ∉ D :=
  ((validate_new_word_ok_iff w D).mp h).2.2

theorem word_char_not_bad (c : Char) (h : is_word_char c = true) :
    (!(is_alphabetic c) && c ≠ '-' && c ≠ '\'') = false := by
  simp only [is_word_char, Bool.or_eq_true, decide_eq_true_eq] at h
  rcases h with (h | h) | h
  · simp [h]
  · simp [h]
  · simp [h]

theorem foldl_process_word_spec (d : List (List Char)) (ws : List (List Char)) :
    ∀ file, ∃ out : List (List Char),
      ws.foldl (process_word d) file =
        file ++ (out.map fun w => w ++ ['\n']).flatten ∧
      ∀ w ∈ out, validate_new_word w d = .ok () := by
  induction ws with
  | nil => exact fun file => ⟨[], by simp, by simp⟩
  | cons w ws ih =>
    intro file
    rw [List.foldl_cons]
    cases hv : validate_new_word w d with
    | error e =>
      have hpw : process_word d file w = file := by simp [process_word, hv]
      rw [hpw]
      exact ih file
    | ok u =>
      cases u
      have hpw : process_word d file w = file ++ w ++ ['\n'] := by
        simp [process_word, hv, write_dictionary]
      rw [hpw]
      rcases ih (file ++ w ++ ['\n']) with ⟨out, h1, h2⟩
      refine ⟨w :: out, ?_, ?_⟩
      · rw [h1]
        simp [List.append_assoc]
      · intro x hx
        rcases List.mem_cons.mp hx with rfl | hx
        · exact hv
        · exact h2 x hx

theorem foldl_process_line_spec (d : List (List Char))
    (lines : List (List Char)) :
    ∀ file, ∃ out : List (List Char),
      lines.foldl (process_line d) file =
        file ++ (out.map fun w => w ++ ['\n']).flatten ∧
      ∀ w ∈ out, validate_new_word w d = .ok () := by
  induction lines with
  | nil => exact fun file => ⟨[], by simp, by simp⟩
  | cons line lines ih =>
    intro file
    rw [List.foldl_cons]
    rcases foldl_process_word_spec d (split_space line) file with ⟨out1, h1, h2⟩
    have hpl : process_line d file line =
        file ++ (out1.map fun w => w ++ ['\n']).flatten := h1
    rw [hpl]
    rcases ih (file ++ (out1.map fun w => w ++ ['\n']).flatten)
      with ⟨out2, h3, h4⟩
    refine ⟨out1 ++ out2, ?_, ?_⟩
    · rw [h3]
      simp [List.append_assoc]
    · intro x hx
      rcases List.mem_append.mp hx with hx | hx
      · exact h2 x hx
      · exact h4 x hx

/-! ## Claims -/

/-- C1: for every game state (in particular every reachable one) and
every candidate guess the validator rejects, the turn leaves the state
unchanged (GuessedLetters and WrongGuessCount exactly as before) and
the game stays in the loop awaiting a guess, surfacing the rejection;
in particular a candidate that passes the single-character and
character-class checks but was already guessed is rejected as
`alreadyGuessed` and mutates nothing. -/
theorem C1_rejection_mutates_nothing (s : GameState) (g : List Char) :
    (∀ e, validate_guess g s.guessed_letters = .error e →
      game_turn s g = (s, .rejected e)) ∧
    (g.length = 1 → (g.all fun c => is_word_char c) = true →
      g ∈ s.guessed_letters →
      game_turn s g = (s, .rejected .alreadyGuessed)) := by
  constructor
  · exact fun e h => game_turn_error s g e h
  · intro h1 h2 h3
    apply game_turn_error
    unfold validate_guess
    rw [if_neg (by simp [h1]), if_neg (by simp [h2]),
      if_pos (by simpa using h3)]

/-- Witness for C1 at a concrete already-guessed letter. -/
theorem C1_witness :
    game_turn ⟨['c', 'a', 't'], [['a']], 0⟩ ['a'] =
      (⟨['c', 'a', 't'], [['a']], 0⟩, .rejected .alreadyGuessed) :=
  (C1_rejection_mutates_nothing ⟨['c', 'a', 't'], [['a']], 0⟩ ['a']).2
    (by decide) (by decide) (by decide)

/-- C2 counterexample: the loader keeps empty lines. On the resource
content `"a\n\nb"` it returns three words, among them the empty word,
not just the two non-empty lines the claim promises. -/
theorem C2_counterexample :
    read_dictionary (some ['a', '\n', '\n', 'b']) = [['a'], [], ['b']] ∧
    [] ∈ read_dictionary (some ['a', '\n', '\n', 'b']) := by
  decide

/-- C2 (amended): `load()` returns exactly the lines of the backing
resource — empty lines included — one word per line in file order; a
missing resource is created empty and reads as empty, and an empty
resource yields an empty Dictionary rather than a failure. -/
theorem C2_load_lines :
    read_dictionary none = [] ∧
    read_dictionary (some []) = [] ∧
    ∀ ws : List (List Char), (∀ w ∈ ws, ∀ c ∈ w, c ≠ '\n' ∧ c ≠ '\r') →
      read_dictionary (some ((ws.map fun w => w ++ ['\n']).flatten)) = ws := by
  refine ⟨rfl, rfl, ?_⟩
  intro ws hws
  induction ws with
  | nil => rfl
  | cons w ws ih =>
    have hw := hws w (List.mem_cons_self w ws)
    have ih2 := ih fun x hx => hws x (List.mem_cons_of_mem w hx)
    show rustLines ((w ++ ['\n']) :: ws.map fun w => w ++ ['\n']).flatten = w :: ws
    rw [List.flatten_cons,
      show (w ++ ['\n']) ++ (ws.map fun w => w ++ ['\n']).flatten =
        w ++ '\n' :: (ws.map fun w => w ++ ['\n']).flatten by simp,
      rustLines_append _ _ hw]
    exact congrArg (w :: ·) ih2

/-- Witness for C2 (amended) on a one-word resource. -/
theorem C2_witness :
    read_dictionary
      (some (([['h', 'i']].map fun w => w ++ ['\n']).flatten)) = [['h', 'i']] :=
  C2_load_lines.2.2 [['h', 'i']] (by decide)

/-- C3 counterexample: the guess validator performs no case
normalization. The candidate `"A"` passes the single-character and
character-class checks and its lowercase form `"a"` is a member of the
guessed set, yet the validator accepts it instead of returning
`alreadyGuessed`. -/
theorem C3_counterexample :
    validate_guess ['A'] [['a']] = .ok () ∧
    ['A'].map Char.toLower ∈ [['a']] := by
  decide

/-- C3 (amended): the three checks run in the order single-character,
character-class, membership, first failure winning; for a candidate
passing the first two checks the result is `alreadyGuessed` iff the
candidate ITSELF (no case normalization — the caller lowercases input
upstream) is a member of the guessed set, and acceptance iff it is
not. -/
theorem C3_checks_in_order (g : List Char) (G : List (List Char)) :
    (g.length ≠ 1 → validate_guess g G = .error .notSingleCharacter) ∧
    (g.length = 1 → (g.all fun c => is_word_char c) = false →
      validate_guess g G = .error .invalidCharacter) ∧
    (g.length = 1 → (g.all fun c => is_word_char c) = true →
      (validate_guess g G = .error .alreadyGuessed ↔ g ∈ G)) ∧
    (g.length = 1 → (g.all fun c => is_word_char c) = true →
      (validate_guess g G = .ok () ↔ g ∉ G)) := by
  refine ⟨?_, ?_, ?_, ?_⟩
  · intro h
    unfold validate_guess
    rw [if_pos h]
  · intro h1 h2
    unfold validate_guess
    rw [if_neg (by simp [h1]), if_pos (by simp [h2])]
  · intro h1 h2
    unfold validate_guess
    rw [if_neg (by simp [h1]), if_neg (by simp [h2])]
    by_cases h3 : g ∈ G
    · rw [if_pos (by simpa using h3)]
      simp [h3]
    · rw [if_neg (by simpa using h3)]
      simp [h3]
  · intro h1 h2
    rw [validate_guess_ok_iff]
    simp [h1, h2]

/-- Witness for C3 (amended) at a fresh candidate. -/
theorem C3_witness :
    validate_guess ['b'] [['a']] = .ok () ↔ ['b'] ∉ [['a']] :=
  (C3_checks_in_order ['b'] [['a']]).2.2.2 (by decide) (by decide)

/-- C4 counterexample: word admission compares candidates with stored
entries verbatim, NOT case-insensitively. The candidate `"cat"` is a
case-normalized duplicate of the stored `"Cat"`, yet it is accepted
instead of rejected as `alreadyPresent`. -/
theorem C4_counterexample :
    validate_new_word ['c', 'a', 't'] [['C', 'a', 't']] = .ok () ∧
    ['c', 'a', 't'].map Char.toLower ∈
      ([['C', 'a', 't']].map fun w => w.map Char.toLower) := by
  decide

/-- C4 (amended): for candidates passing the length and
character-class checks, admission returns `alreadyPresent` iff the
candidate occurs verbatim (case-sensitively) in the dictionary, and
accepts iff it does not; the decision function never mutates the
dictionary (it only returns a verdict). -/
theorem C4_membership_case_sensitive (w : List Char) (D : List (List Char))
    (h1 : 2 ≤ w.length) (h2 : (w.all fun c => is_word_char c) = true) :
    (validate_new_word w D = .error .alreadyPresent ↔ w ∈ D) ∧
    (validate_new_word w D = .ok () ↔ w ∉ D) := by
  have hbad : (w.any fun c => !(is_alphabetic c) && c ≠ '-' && c ≠ '\'') =
      false := by
    cases hany : (w.any fun c => !(is_alphabetic c) && c ≠ '-' && c ≠ '\'') with
    | false => rfl
    | true =>
      exfalso
      rcases List.any_eq_true.mp hany with ⟨c, hc, hcbad⟩
      rw [word_char_not_bad c ((List.all_eq_true.mp h2) c hc)] at hcbad
      cases hcbad
  have hna : ¬ (w.any fun c => !(is_alphabetic c) && c ≠ '-' && c ≠ '\'') =
      true := by
    rw [hbad]
    exact Bool.false_ne_true
  constructor
  · unfold validate_new_word
    rw [if_neg (by omega), if_neg hna]
    by_cases h3 : w ∈ D
    · rw [if_pos (by simpa using h3)]
      simp [h3]
    · rw [if_neg (by simpa using h3)]
      simp [h3]
  · rw [validate_new_word_ok_iff]
    exact ⟨fun h => h.2.2, fun h => ⟨by omega, hna, h⟩⟩

/-- Witness for C4 (amended) at a verbatim duplicate. -/
theorem C4_witness :
    (validate_new_word ['a', 'b'] [['a', 'b']] = .error .alreadyPresent ↔
      ['a', 'b'] ∈ [['a', 'b']]) ∧
    (validate_new_word ['a', 'b'] [['a', 'b']] = .ok () ↔
      ['a', 'b'] ∉ [['a', 'b']]) :=
  C4_membership_case_sensitive ['a', 'b'] [['a', 'b']] (by decide) (by decide)

/-- C5 counterexample: the reveal computation compares each word
character with the guessed set verbatim, NOT case-normalized. With
word `"Cat"` and guessed set `{"c","a","t"}` the first position stays
a placeholder although the case-normalized `'C'` is a member, and the
word does not count as fully revealed. -/
theorem C5_counterexample :
    display_word ['C', 'a', 't'] [['c'], ['a'], ['t']] =
      ['_', ' ', 'a', ' ', 't', ' '] ∧
    [Char.toLower 'C'] ∈ [['c'], ['a'], ['t']] ∧
    reveal_slots ['C', 'a', 't'] [['c'], ['a'], ['t']] = ['_', 'a', 't'] ∧
    fully_revealed ['C', 'a', 't'] [['c'], ['a'], ['t']] = false := by
  decide

/-- C5 (amended): at each character position, the slot is the
character itself iff that character's VERBATIM (case-sensitive)
singleton string is a member of the guessed set, and a placeholder
otherwise; for a word without a literal underscore, `fullyRevealed`
holds iff no slot is a placeholder, equivalently iff every character
of the word is guessed; the computation is a pure function of
`(word, guessed)`, so recomputation with unchanged inputs is trivially
identical. -/
theorem C5_reveal_slots (w : List Char) (G : List (List Char)) :
    display_word w G = (reveal_slots w G).flatMap (fun c => [c, ' ']) ∧
    ('_' ∉ w → ((fully_revealed w G = true) ↔ '_' ∉ reveal_slots w G)) ∧
    ('_' ∉ w → ((fully_revealed w G = true) ↔ ∀ c ∈ w, [c] ∈ G)) := by
  refine ⟨?_, ?_, ?_⟩
  · induction w with
    | nil => rfl
    | cons c cs ih =>
      simp only [display_word, reveal_slots, List.map_cons,
        List.flatMap_cons] at ih ⊢
      rw [ih]
      by_cases hm : G.contains [c] = true
      · rw [if_pos hm, if_pos hm]
      · rw [if_neg hm, if_neg hm]
  · intro hw
    rw [fully_revealed_iff]
    constructor
    · intro h hmem
      rcases List.mem_map.mp hmem with ⟨c, hc, hceq⟩
      rcases h c hc with ⟨hG, hne⟩
      have hcon : G.contains [c] = true := by simpa using hG
      rw [if_pos hcon] at hceq
      exact hne hceq
    · intro h c hc
      refine ⟨?_, fun hceq => hw (hceq ▸ hc)⟩
      by_contra hG
      apply h
      refine List.mem_map.mpr ⟨c, hc, ?_⟩
      rw [if_neg (by simpa using hG)]
  · intro hw
    rw [fully_revealed_iff]
    constructor
    · exact fun h c hc => (h c hc).1
    · exact fun h c hc => ⟨h c hc, fun hceq => hw (hceq ▸ hc)⟩

/-- Witness for C5 (amended) at a fully revealed word. -/
theorem C5_witness :
    (fully_revealed ['h', 'i'] [['h'], ['i']] = true) ↔
      ∀ c ∈ ['h', 'i'], [c] ∈ [['h'], ['i']] :=
  (C5_reveal_slots ['h', 'i'] [['h'], ['i']]).2.2 (by decide)

/-- C6: from every reachable loop state, WrongGuessCount is within
[0, 6] before and after any turn, never decreases, changes only by
exactly 1 and only on an accepted guess that is absent from the secret
word, and the turn reports the terminal loss exactly when the count
reaches 6. -/
theorem C6_tries_bounded_monotone (s : GameState) (g : List Char)
    (hr : Reachable s) :
    s.tries ≤ 6 ∧
    (game_turn s g).1.tries ≤ 6 ∧
    s.tries ≤ (game_turn s g).1.tries ∧
    ((game_turn s g).1.tries = s.tries ∨
      ((game_turn s g).1.tries = s.tries + 1 ∧
        validate_guess g s.guessed_letters = .ok () ∧
        str_contains s.word g = false)) ∧
    ((game_turn s g).2 = .lost ↔ (game_turn s g).1.tries = 6) := by
  have h5 := reachable_tries_le s hr
  rcases validate_guess_error_em g s.guessed_letters with hv | ⟨e, hv⟩
  · obtain ⟨hword, hgl, htries, hlost, hwon⟩ := game_turn_ok_cases s g hv
    refine ⟨by omega, ?_, ?_, ?_, hlost⟩
    · rw [htries]
      split_ifs <;> omega
    · rw [htries]
      split_ifs <;> omega
    · rw [htries]
      by_cases hc : str_contains s.word g = true
      · rw [if_pos hc]
        exact Or.inl rfl
      · rw [if_neg hc]
        exact Or.inr ⟨rfl, hv, by simpa using hc⟩
  · rw [game_turn_error s g e hv]
    dsimp only
    exact ⟨by omega, by omega, le_refl _, Or.inl rfl,
      iff_of_false (by simp) (by omega)⟩

/-- Witness for C6 on the initial state of a concrete game. -/
theorem C6_witness :
    ((game_turn (initial_state ['c', 'a']) ['x']).2 = .lost ↔
      (game_turn (initial_state ['c', 'a']) ['x']).1.tries = 6) :=
  (C6_tries_bounded_monotone (initial_state ['c', 'a']) ['x']
    (Reachable.init ['c', 'a'])).2.2.2.2

/-- C7: appending a word containing no line-terminator character to an
empty backing resource and reloading yields the dictionary containing
exactly that word. -/
theorem C7_roundtrip (x : List Char)
    (hx : ∀ c ∈ x, c ≠ '\n' ∧ c ≠ '\r') :
    read_dictionary (some (write_dictionary [] x)) = [x] := by
  show rustLines ([] ++ x ++ ['\n']) = [x]
  rw [List.nil_append,
    show x ++ ['\n'] = x ++ '\n' :: [] from rfl,
    rustLines_append x [] hx]
  rfl

/-- Witness for C7 on a concrete word. -/
theorem C7_witness :
    read_dictionary (some (write_dictionary [] ['h', 'i'])) = [['h', 'i']] :=
  C7_roundtrip ['h', 'i'] (by decide)

/-- C8 counterexample: with an empty secret word — reachable, since
the loader turns a resource consisting of one blank line into the
dictionary containing the empty word — the very first accepted guess
makes the display complete (no blanks), so the turn transitions to
`won` AND increments WrongGuessCount, because the guess is trivially
absent from the empty word. -/
theorem C8_counterexample :
    read_dictionary (some ['\n']) = [[]] ∧
    Reachable (initial_state []) ∧
    (game_turn (initial_state []) ['a']).2 = .won ∧
    (game_turn (initial_state []) ['a']).1.tries =
      (initial_state []).tries + 1 :=
  ⟨by decide, Reachable.init [], by decide, by decide⟩

/-- C8 (amended): in every reachable game state whose secret word is
non-empty, the display can become fully revealed on an accepted turn
only if that turn's guess occurs in the secret word, and consequently
a turn that transitions the game to `won` never increments
WrongGuessCount. -/
theorem C8_won_implies_hit (s : GameState) (g : List Char)
    (hr : Reachable s) (hw : s.word ≠ []) :
    (validate_guess g s.guessed_letters = .ok () →
      fully_revealed s.word (s.guessed_letters ++ [g]) = true →
      str_contains s.word g = true) ∧
    ((game_turn s g).2 = .won → (game_turn s g).1.tries = s.tries) := by
  have hhit : validate_guess g s.guessed_letters = .ok () →
      fully_revealed s.word (s.guessed_letters ++ [g]) = true →
      str_contains s.word g = true := by
    intro hv hfull
    rcases reachable_not_done s hr hw with ⟨c, hc, hcn⟩
    rw [fully_revealed_iff] at hfull
    rcases hfull c hc with ⟨hG, -⟩
    rcases List.mem_append.mp hG with hold | hnew
    · exact absurd hold hcn
    · rw [← List.mem_singleton.mp hnew]
      exact (str_contains_singleton s.word c).mpr hc
  refine ⟨hhit, ?_⟩
  intro hwin
  rcases validate_guess_error_em g s.guessed_letters with hv | ⟨e, hv⟩
  · obtain ⟨hword, hgl, htries, hlost, hwon⟩ := game_turn_ok_cases s g hv
    have hnl : (game_turn s g).2 ≠ .lost := by
      rw [hwin]
      simp
    have hfull := (hwon hnl).mp hwin
    rw [htries, if_pos (hhit hv hfull)]
  · rw [game_turn_error s g e hv] at hwin
    exact absurd hwin (by simp)

/-- Witness for C8 (amended) on a concrete non-empty word. -/
theorem C8_witness :
    (validate_guess ['c'] (initial_state ['c', 'a']).guessed_letters =
        .ok () →
      fully_revealed (initial_state ['c', 'a']).word
        ((initial_state ['c', 'a']).guessed_letters ++ [['c']]) = true →
      str_contains (initial_state ['c', 'a']).word ['c'] = true) ∧
    ((game_turn (initial_state ['c', 'a']) ['c']).2 = .won →
      (game_turn (initial_state ['c', 'a']) ['c']).1.tries =
        (initial_state ['c', 'a']).tries) :=
  C8_won_implies_hit (initial_state ['c', 'a']) ['c']
    (Reachable.init ['c', 'a']) (by decide)

/-- C9 counterexample: the add-words session validates every submitted
word against the dictionary snapshot loaded at session start, so the
word `"ab"`, submitted twice in the same session over an empty
dictionary, is appended twice instead of being rejected as already
present the second time — the reloaded dictionary holds the duplicate
entry. -/
theorem C9_counterexample :
    add_new_words_to_dictionary [] [] [['a', 'b'], ['a', 'b'], ['1']] =
      ['a', 'b', '\n', 'a', 'b', '\n'] ∧
    read_dictionary (some (add_new_words_to_dictionary [] []
      [['a', 'b'], ['a', 'b'], ['1']])) = [['a', 'b'], ['a', 'b']] := by
  decide

/-- C9 (amended): a session appends exactly a sequence of words each
of which passed admission validation against the dictionary snapshot
taken at session start; hence a word already present (verbatim) in
that snapshot is never appended. Because the snapshot is not updated
during the session, a new word submitted repeatedly is appended
repeatedly, so duplicates among the session's own additions are
possible. -/
theorem C9_session_appends_validated (dictionary : List (List Char))
    (file : List Char) (inputs : List (List Char)) :
    ∃ ws : List (List Char),
      add_new_words_to_dictionary dictionary file inputs =
        file ++ (ws.map fun w => w ++ ['\n']).flatten ∧
      ∀ w ∈ ws, validate_new_word w dictionary = .ok () ∧
        w ∉ dictionary := by
  rcases foldl_process_line_spec dictionary
      (inputs.takeWhile fun l => l ≠ ['1']) file with ⟨out, h1, h2⟩
  exact ⟨out, h1, fun w hw =>
    ⟨h2 w hw, validate_new_word_ok_not_mem w _ (h2 w hw)⟩⟩

/-- C10: the random word selection in `main` cannot fail: whenever the
loaded dictionary is non-empty (the emptiness guard did not return),
`choose` yields some word of the dictionary, so the `unwrap` never
panics. -/
theorem C10_choose_never_panics (file : Option (List Char)) (r : Nat)
    (h : (read_dictionary file).isEmpty = false) :
    ∃ w, main_select file r = some w ∧ w ∈ read_dictionary file := by
  have hne : read_dictionary file ≠ [] := by
    intro hempty
    rw [hempty] at h
    cases h
  have hlen : 0 < (read_dictionary file).length := List.length_pos.mpr hne
  have hlt : r % (read_dictionary file).length <
      (read_dictionary file).length := Nat.mod_lt _ hlen
  refine ⟨(read_dictionary file)[r % (read_dictionary file).length],
    ?_, List.getElem_mem hlt⟩
  show (if (read_dictionary file).isEmpty = true then none
    else choose (read_dictionary file) r) = _
  rw [if_neg (by simp [h])]
  unfold choose
  rw [if_neg (by simp [h])]
  exact List.getElem?_eq_getElem hlt

/-- Witness for C10 on a one-word dictionary file. -/
theorem C10_witness :
    ∃ w, main_select (some ['h', 'i', '\n']) 0 = some w ∧
      w ∈ read_dictionary (some ['h', 'i', '\n']) :=
  C10_choose_never_panics (some ['h', 'i', '\n']) 0 (by decide)

end Snowman
